import Mathlib

/-!
Shallow embedding of the snap-server range-proof core (`core/snap_server.go`):
the bounded trie walk `iterateWithLimit`, its inline proof merging, and the
range operations `GetTrieRootAt`, `GetClassRange`, `GetAddressRange`,
`GetContractRange` / `handleStorageRangeRequest` built on top of it.

Modelling conventions:
- `felt.Felt` is modelled as `Nat` (only its total order and equality matter
  here); `felt.Cmp` is the three-way comparator `feltCmp` returning -1/0/1.
- Go `int` counters and limits are modelled as `Int` so that non-positive
  `maxNode` budgets behave as in the source.
- Fallible collaborator calls (`Root()`, `ProofTo`, `Class`, `Contract`, ...)
  return `Except Err _`.
- A Go pair-return `(*T, error)` is modelled as `Option T × Option Err`, so
  that a populated result returned together with an error is observable.
- The external trie collaborator is modelled by the list of `(key, value)`
  leaves its `Iterate` yields in order, a `ProofTo` function and a `Root`
  value; `Iterate(startAddr, f)` visits the leaves with key ≥ startAddr.
- The `hashFunc trie.HashFunc` parameter of `iterateWithLimit` is unused in
  the Go body and therefore omitted; likewise the dead local `skippedcount`.
-/

namespace Juno

/-- Errors surfaced by the snap server and its collaborators. -/
inductive Err where
  | storageRootMismatch (got expected : Nat)
  | external (code : Nat)
deriving DecidableEq, Repr

/-- Model of `felt.Cmp`: three-way comparison on field elements, returning -1, 0 or 1. -/
def feltCmp (a b : Nat) : Int :=
  if a < b then -1 else if b < a then 1 else 0

/-- Model of `trie.ProofNode`: one node of a root-to-leaf proof, identified by its
`Key`; the remaining structural content is opaque to this layer. -/
structure ProofNode where
  Key : Nat
  content : Nat
deriving DecidableEq, Repr

/-- The external trie collaborator, consumed through its contract:
`leaves` is the ascending `(key, value)` sequence `Iterate` yields from the
beginning, `ProofTo` the root-to-key proof, `Root` the root hash. -/
structure Trie where
  leaves : List (Nat × Nat)
  ProofTo : Nat → Except Err (List ProofNode)
  Root : Except Err Nat

/-- The leaves `Iterate(startAddr, ·)` visits: those with key ≥ startAddr,
in the ascending order of the trie. -/
def iterLeaves (t : Trie) (startAddr : Nat) : List (Nat × Nat) :=
  t.leaves.filter (fun p => startAddr ≤ p.1)

/-- A class definition body (opaque at this layer). -/
abbrev ClassDef : Type := Nat

/-- The record returned by `s.Class(key)`, carrying the class body. -/
structure DeclaredClass where
  Class : ClassDef
deriving DecidableEq, Repr

/-- A contract record: its own storage trie and its storage root. -/
structure Contract where
  StorageTrie : Except Err Trie
  Root : Except Err Nat

/-- The state snapshot: collaborator lookups used by the snap server. -/
structure State where
  storage : Except Err Trie
  classesTrie : Except Err Trie
  Class : Nat → Except Err DeclaredClass
  ContractClassHash : Nat → Except Err Nat
  ContractNonce : Nat → Except Err Nat
  Contract : Nat → Except Err Contract

structure TrieRootInfo where
  StorageRoot : Nat
  ClassRoot : Nat
deriving DecidableEq, Repr

structure ClassRangeResult where
  Paths : List Nat
  ClassHashes : List Nat
  Classes : List ClassDef
  Proofs : List ProofNode
deriving DecidableEq, Repr

structure AddressRangeLeaf where
  StorageRoot : Nat
  ClassHash : Nat
  Nonce : Nat
deriving DecidableEq, Repr

structure AddressRangeResult where
  Paths : List Nat
  Hashes : List Nat
  Leaves : List AddressRangeLeaf
  Proofs : List ProofNode
deriving DecidableEq, Repr

structure StorageRangeRequest where
  Path : Nat
  Hash : Nat
  StartAddr : Nat
  LimitAddr : Option Nat
deriving DecidableEq, Repr

structure StorageRangeResult where
  Paths : List Nat
  Values : List Nat
  Proofs : List ProofNode
deriving DecidableEq, Repr

/-- The shared node cap, `maxNodePerRequest = 1024 * 16`. -/
def maxNodePerRequest : Int := 1024 * 16

/-- Model of `GetTrieRootAt`: opens the storage and class tries and returns their
roots; the `blockHash` argument is not inspected (the source carries a
`TODO: check the block hash`). -/
def GetTrieRootAt (s : State) (blockHash : Nat) : Option TrieRootInfo × Option Err :=
  match s.storage with
  | .error e => (none, some e)
  | .ok strie =>
    match strie.Root with
    | .error e => (none, some e)
    | .ok storageRoot =>
      match s.classesTrie with
      | .error e => (none, some e)
      | .ok ctrie =>
        match ctrie.Root with
        | .error e => (none, some e)
        | .ok classRoot => (some ⟨storageRoot, classRoot⟩, none)

/-- The early-stop guard of the walk, exactly as written in the source:
`limitAddr != nil && key.Cmp(limitAddr) > 1 && count > 0`. -/
def limitExceeded (limitAddr : Option Nat) (key : Nat) (count : Nat) : Bool :=
  match limitAddr with
  | none => false
  | some l => decide (1 < feltCmp key l) && decide (0 < count)

/-- The mutable locals of the visitor closure in `iterateWithLimit`, plus
the accumulated consumer response state `acc` (the response the Go consumer
closure mutates). -/
structure WalkSt (α : Type) where
  pathes : List Nat
  hashes : List Nat
  startPath : Option Nat
  endPath : Option Nat
  count : Nat
  acc : α

/-- One visitor invocation per leaf, as in the body of the closure passed to
`srcTrie.Iterate`: check the limit guard, record the leaf, run the consumer
(which may error after partially updating its state), then bump the count
and stop once it reaches `maxNode`. -/
def iterLoop {α : Type} (limitAddr : Option Nat) (maxNode : Int)
    (consumer : α → Nat → Nat → α × Option Err) :
    List (Nat × Nat) → WalkSt α → WalkSt α × Option Err
  | [], st => (st, none)
  | (key, value) :: rest, st =>
    if limitExceeded limitAddr key st.count then
      (st, none)
    else
      let st1 : WalkSt α := { st with
        startPath := st.startPath <|> some key,
        pathes := st.pathes ++ [key],
        hashes := st.hashes ++ [value] }
      match consumer st1.acc key value with
      | (a, some e) => ({ st1 with acc := a }, some e)
      | (a, none) =>
        let st2 : WalkSt α := { st1 with acc := a, endPath := some key, count := st1.count + 1 }
        if maxNode ≤ (st2.count : Int) then (st2, none)
        else iterLoop limitAddr maxNode consumer rest st2

/-- The inline proof-merging loop at the end of `iterateWithLimit`: start
from `leftProof` and append each node of `rightProof` whose `Key` is not
already present in the accumulated list. -/
def mergeProofs (leftProof rightProof : List ProofNode) : List ProofNode :=
  rightProof.foldl
    (fun proofs proof =>
      if proofs.any (fun node => node.Key == proof.Key) then proofs
      else proofs ++ [proof])
    leftProof

/-- Model of `iterateWithLimit`: the bounded walk followed by proof assembly.  Returns
the final walk state (whose `acc` is the accumulated consumer response),
the proof list, and the error, mirroring the Go `([]trie.ProofNode, error)`
return with the consumer state threaded explicitly. -/
def iterateWithLimit {α : Type} (srcTrie : Trie) (startAddr : Nat)
    (limitAddr : Option Nat) (maxNode : Int)
    (consumer : α → Nat → Nat → α × Option Err) (acc0 : α) :
    WalkSt α × List ProofNode × Option Err :=
  let st0 : WalkSt α := ⟨[], [], none, none, 0, acc0⟩
  match iterLoop limitAddr maxNode consumer (iterLeaves srcTrie startAddr) st0 with
  | (st, some e) => (st, [], some e)
  | (st, none) =>
    if st.count = 1 then
      match st.startPath with
      | some p =>
        match srcTrie.ProofTo p with
        | .ok proof => (st, proof, none)
        | .error e => (st, [], some e)
      | none => (st, [], none)
    else if 1 < st.count then
      match st.startPath, st.endPath with
      | some p, some q =>
        match srcTrie.ProofTo p with
        | .error e => (st, [], some e)
        | .ok leftProof =>
          match srcTrie.ProofTo q with
          | .error e => (st, [], some e)
          | .ok rightProof => (st, mergeProofs leftProof rightProof, none)
      | _, _ => (st, [], none)
    else (st, [], none)

/-- The consumer closure of `GetClassRange`: append the path and class hash,
then resolve the class body (which may fail after the partial append). -/
def classRangeConsumer (s : State) :
    ClassRangeResult → Nat → Nat → ClassRangeResult × Option Err :=
  fun response key value =>
    let response := { response with
      Paths := response.Paths ++ [key],
      ClassHashes := response.ClassHashes ++ [value] }
    match s.Class key with
    | .error e => (response, some e)
    | .ok cl => ({ response with Classes := response.Classes ++ [cl.Class] }, none)

/-- Model of `GetClassRange`: walk the class trie with the per-request node cap; the
response object is returned together with any error from the walk. -/
def GetClassRange (s : State) (classTrieRootHash : Nat) (startAddr : Nat)
    (limitAddr : Option Nat) : Option ClassRangeResult × Option Err :=
  match s.classesTrie with
  | .error e => (none, some e)
  | .ok ctrie =>
    match iterateWithLimit ctrie startAddr limitAddr maxNodePerRequest
        (classRangeConsumer s) ⟨[], [], [], []⟩ with
    | (st, proofs, err) => (some { st.acc with Proofs := proofs }, err)

/-- The consumer closure of `GetAddressRange`: append path and hash, then
resolve class hash, nonce and the storage root of the contract; any failure
aborts after the partial appends. -/
def addressRangeConsumer (s : State) :
    AddressRangeResult → Nat → Nat → AddressRangeResult × Option Err :=
  fun response key value =>
    let response := { response with
      Paths := response.Paths ++ [key],
      Hashes := response.Hashes ++ [value] }
    match s.ContractClassHash key with
    | .error e => (response, some e)
    | .ok classHash =>
      match s.ContractNonce key with
      | .error e => (response, some e)
      | .ok nonce =>
        match s.Contract key with
        | .error e => (response, some e)
        | .ok ctrk =>
          match ctrk.Root with
          | .error e => (response, some e)
          | .ok croot =>
            ({ response with
                Leaves := response.Leaves ++ [⟨croot, classHash, nonce⟩] }, none)

/-- Model of `GetAddressRange`: walk the global storage (address) trie with the
per-request node cap. -/
def GetAddressRange (s : State) (rootHash : Nat) (startAddr : Nat)
    (limitAddr : Option Nat) : Option AddressRangeResult × Option Err :=
  match s.storage with
  | .error e => (none, some e)
  | .ok strie =>
    match iterateWithLimit strie startAddr limitAddr maxNodePerRequest
        (addressRangeConsumer s) ⟨[], [], [], []⟩ with
    | (st, proofs, err) => (some { st.acc with Proofs := proofs }, err)

/-- The consumer closure of `handleStorageRangeRequest`: just record the
path and value. -/
def storageRangeConsumer :
    StorageRangeResult → Nat → Nat → StorageRangeResult × Option Err :=
  fun response key value =>
    ({ response with
        Paths := response.Paths ++ [key],
        Values := response.Values ++ [value] }, none)

/-- Model of `handleStorageRangeRequest`: resolve the contract, open its storage trie,
check the recomputed root against the claimed hash of the request (a mismatch is a
fatal error), then walk with the given node limit. -/
def handleStorageRangeRequest (s : State) (request : StorageRangeRequest)
    (nodeLimit : Int) : Option StorageRangeResult × Option Err :=
  match s.Contract request.Path with
  | .error e => (none, some e)
  | .ok contract =>
    match contract.StorageTrie with
    | .error e => (none, some e)
    | .ok strie =>
      match strie.Root with
      | .error e => (none, some e)
      | .ok sroot =>
        if sroot = request.Hash then
          match iterateWithLimit strie request.StartAddr request.LimitAddr
              nodeLimit storageRangeConsumer ⟨[], [], []⟩ with
          | (st, proofs, err) => (some { st.acc with Proofs := proofs }, err)
        else (none, some (.storageRootMismatch sroot request.Hash))

/-- The request loop of `GetContractRange`: one shared node budget across
the batch; any per-request error discards everything; stop (successfully)
once the budget is exhausted.  The `(none, none)` arm is unreachable:
`handleStorageRangeRequest` never returns a nil result without an error. -/
def storageLoop (s : State) :
    List StorageRangeRequest → Int → List StorageRangeResult →
    Option (List StorageRangeResult) × Option Err
  | [], _, responses => (some responses, none)
  | request :: rest, curNodeLimit, responses =>
    match handleStorageRangeRequest s request curNodeLimit with
    | (_, some e) => (none, some e)
    | (none, none) => (none, none)
    | (some response, none) =>
      let responses := responses ++ [response]
      let curNodeLimit := curNodeLimit - (response.Paths.length : Int)
      if curNodeLimit ≤ 0 then (some responses, none)
      else storageLoop s rest curNodeLimit responses

/-- Model of `GetContractRange`: batch of per-contract storage walks sharing the
`maxNodePerRequest` budget; the root-hash argument is not inspected. -/
def GetContractRange (s : State) (storageTrieRootHash : Nat)
    (requests : List StorageRangeRequest) :
    Option (List StorageRangeResult) × Option Err :=
  storageLoop s requests maxNodePerRequest []

/-- Total number of leaves across a list of storage-range windows. -/
def sumLen (rs : List StorageRangeResult) : Nat :=
  (rs.map (fun r => r.Paths.length)).sum

/-! ### Concrete collaborator instances used as test fixtures -/

/-- A path-accumulating consumer recording only the accepted keys. -/
def consPaths : List Nat → Nat → Nat → List Nat × Option Err :=
  fun a key _ => (a ++ [key], none)

/-- A linear `ProofTo`: a root node of content `rt` followed by the node at
the requested key. -/
def proofToLin (rt : Nat) : Nat → Except Err (List ProofNode) :=
  fun key => .ok [⟨0, rt⟩, ⟨key, key⟩]

def cTrie3 : Trie := ⟨[(1, 10), (2, 20), (3, 30)], proofToLin 100, .ok 100⟩

def cTrie2 : Trie := ⟨[(1, 10), (2, 20)], proofToLin 100, .ok 100⟩

def cTrie1 : Trie := ⟨[(5, 50)], proofToLin 100, .ok 100⟩

def cContract1 : Contract := ⟨.ok cTrie1, .ok 100⟩

def cState : State :=
  ⟨.ok cTrie3, .ok cTrie3, fun key => .ok ⟨key + 1000⟩,
   fun key => .ok (key + 1), fun key => .ok (key + 2), fun _ => .ok cContract1⟩

/-- Like `cState` but every class-body lookup fails. -/
def cStateClassErr : State := { cState with Class := fun _ => .error (.external 7) }

def req1 : StorageRangeRequest := ⟨1, 100, 0, none⟩

def reqBad : StorageRangeRequest := ⟨1, 99, 0, none⟩

/-! ### Basic facts about the walk -/

theorem feltCmp_le_one (a b : Nat) : feltCmp a b ≤ 1 := by
  unfold feltCmp
  split_ifs <;> omega

/-- The guard `key.Cmp(limitAddr) > 1 && count > 0` is never satisfied:
a three-way comparator never returns a value above 1. -/
theorem limitExceeded_eq_false (limitAddr : Option Nat) (key count : Nat) :
    limitExceeded limitAddr key count = false := by
  cases limitAddr with
  | none => rfl
  | some l =>
    have h := feltCmp_le_one key l
    have hd : decide (1 < feltCmp key l) = false := by
      simp only [decide_eq_false_iff_not, not_lt]
      exact h
    simp [limitExceeded, hd]

theorem iterLoop_nil {α : Type} (limitAddr : Option Nat) (maxNode : Int)
    (C : α → Nat → Nat → α × Option Err) (st : WalkSt α) :
    iterLoop limitAddr maxNode C [] st = (st, none) := rfl

/-- One step of the walk, with the dead limit guard already removed. -/
theorem iterLoop_cons {α : Type} (limitAddr : Option Nat) (maxNode : Int)
    (C : α → Nat → Nat → α × Option Err) (key value : Nat)
    (rest : List (Nat × Nat)) (st : WalkSt α) :
    iterLoop limitAddr maxNode C ((key, value) :: rest) st =
      match C st.acc key value with
      | (a, some e) =>
        (⟨st.pathes ++ [key], st.hashes ++ [value], st.startPath <|> some key,
          st.endPath, st.count, a⟩, some e)
      | (a, none) =>
        if maxNode ≤ ((st.count + 1 : Nat) : Int) then
          (⟨st.pathes ++ [key], st.hashes ++ [value], st.startPath <|> some key,
            some key, st.count + 1, a⟩, none)
        else
          iterLoop limitAddr maxNode C rest
            ⟨st.pathes ++ [key], st.hashes ++ [value], st.startPath <|> some key,
             some key, st.count + 1, a⟩ := by
  obtain ⟨pth, hsh, sp, ep, cnt, acc⟩ := st
  rw [iterLoop, limitExceeded_eq_false]
  rfl

/-- Walk step when the consumer errors on the visited leaf. -/
theorem iterLoop_cons_err {α : Type} {limitAddr : Option Nat} {maxNode : Int}
    {C : α → Nat → Nat → α × Option Err} {key value : Nat}
    {rest : List (Nat × Nat)} {st : WalkSt α} {a : α} {e : Err}
    (hCv : C st.acc key value = (a, some e)) :
    iterLoop limitAddr maxNode C ((key, value) :: rest) st =
      (⟨st.pathes ++ [key], st.hashes ++ [value], st.startPath <|> some key,
        st.endPath, st.count, a⟩, some e) := by
  rw [iterLoop_cons, hCv]

/-- Walk step when the consumer succeeds on the visited leaf. -/
theorem iterLoop_cons_ok {α : Type} {limitAddr : Option Nat} {maxNode : Int}
    {C : α → Nat → Nat → α × Option Err} {key value : Nat}
    {rest : List (Nat × Nat)} {st : WalkSt α} {a : α}
    (hCv : C st.acc key value = (a, none)) :
    iterLoop limitAddr maxNode C ((key, value) :: rest) st =
      (if maxNode ≤ ((st.count + 1 : Nat) : Int) then
        (⟨st.pathes ++ [key], st.hashes ++ [value], st.startPath <|> some key,
          some key, st.count + 1, a⟩, none)
      else
        iterLoop limitAddr maxNode C rest
          ⟨st.pathes ++ [key], st.hashes ++ [value], st.startPath <|> some key,
           some key, st.count + 1, a⟩) := by
  rw [iterLoop_cons, hCv]

/-- If the accepted count starts strictly below the budget, it ends at or
below the budget. -/
theorem iterLoop_count_le {α : Type} (limitAddr : Option Nat) (maxNode : Int)
    (C : α → Nat → Nat → α × Option Err) (leaves : List (Nat × Nat)) :
    ∀ st : WalkSt α, (st.count : Int) < maxNode →
      ((iterLoop limitAddr maxNode C leaves st).1.count : Int) ≤ maxNode := by
  induction leaves with
  | nil => intro st h; rw [iterLoop_nil]; exact le_of_lt h
  | cons kv rest ih =>
    obtain ⟨key, value⟩ := kv
    intro st h
    rcases hCv : C st.acc key value with ⟨a, oe⟩
    cases oe with
    | some e => rw [iterLoop_cons_err hCv]; exact le_of_lt h
    | none =>
      rw [iterLoop_cons_ok hCv]
      by_cases hif : maxNode ≤ ((st.count + 1 : Nat) : Int)
      · rw [if_pos hif]
        push_cast at h ⊢
        omega
      · rw [if_neg hif]
        apply ih
        push_cast at hif ⊢
        omega

/-- Once the budget is at most one above the current count, at most one more
leaf is accepted (this is what makes a non-positive budget accept a leaf). -/
theorem iterLoop_count_le_succ {α : Type} (limitAddr : Option Nat) (maxNode : Int)
    (C : α → Nat → Nat → α × Option Err) (leaves : List (Nat × Nat)) :
    ∀ st : WalkSt α, maxNode ≤ (st.count : Int) + 1 →
      (iterLoop limitAddr maxNode C leaves st).1.count ≤ st.count + 1 := by
  induction leaves with
  | nil => intro st _; rw [iterLoop_nil]; dsimp only; omega
  | cons kv rest ih =>
    obtain ⟨key, value⟩ := kv
    intro st h
    rcases hCv : C st.acc key value with ⟨a, oe⟩
    cases oe with
    | some e => rw [iterLoop_cons_err hCv]; dsimp only; omega
    | none =>
      rw [iterLoop_cons_ok hCv]
      have hif : maxNode ≤ ((st.count + 1 : Nat) : Int) := by push_cast; omega
      rw [if_pos hif]

/-- Error-free preservation: a property of the consumer state and the
accepted count that every successful consumer call preserves holds at the
end of an error-free walk. -/
theorem iterLoop_inv {α : Type} (limitAddr : Option Nat) (maxNode : Int)
    (C : α → Nat → Nat → α × Option Err) (P : α → Nat → Prop)
    (hC : ∀ a key value, (C a key value).2 = none →
      ∀ n, P a n → P (C a key value).1 (n + 1))
    (leaves : List (Nat × Nat)) :
    ∀ st : WalkSt α, P st.acc st.count →
      (iterLoop limitAddr maxNode C leaves st).2 = none →
      P (iterLoop limitAddr maxNode C leaves st).1.acc
        (iterLoop limitAddr maxNode C leaves st).1.count := by
  induction leaves with
  | nil => intro st hP _; rw [iterLoop_nil]; exact hP
  | cons kv rest ih =>
    obtain ⟨key, value⟩ := kv
    intro st hP hok
    rcases hCv : C st.acc key value with ⟨a, oe⟩
    cases oe with
    | some e => rw [iterLoop_cons_err hCv] at hok; simp at hok
    | none =>
      have ha : P a (st.count + 1) := by
        have := hC st.acc key value (by rw [hCv]) st.count hP
        rwa [hCv] at this
      rw [iterLoop_cons_ok hCv] at hok ⊢
      by_cases hif : maxNode ≤ ((st.count + 1 : Nat) : Int)
      · rw [if_pos hif]
        exact ha
      · rw [if_neg hif] at hok ⊢
        exact ih _ ha hok

/-- The keys the consumer accumulates are the previously accumulated ones
followed by a subsequence of the visited keys, in visiting order. -/
theorem iterLoop_paths_sublist {α : Type} (limitAddr : Option Nat) (maxNode : Int)
    (C : α → Nat → Nat → α × Option Err) (pathsOf : α → List Nat)
    (hC : ∀ a key value, pathsOf (C a key value).1 = pathsOf a ++ [key])
    (leaves : List (Nat × Nat)) :
    ∀ st : WalkSt α, ∃ tail,
      tail.Sublist (leaves.map Prod.fst) ∧
      pathsOf (iterLoop limitAddr maxNode C leaves st).1.acc =
        pathsOf st.acc ++ tail := by
  induction leaves with
  | nil =>
    intro st
    exact ⟨[], List.nil_sublist _, by rw [iterLoop_nil]; simp⟩
  | cons kv rest ih =>
    obtain ⟨key, value⟩ := kv
    intro st
    rcases hCv : C st.acc key value with ⟨a, oe⟩
    have ha : pathsOf a = pathsOf st.acc ++ [key] := by
      have := hC st.acc key value
      rwa [hCv] at this
    cases oe with
    | some e =>
      refine ⟨[key], ?_, ?_⟩
      · simp only [List.map_cons]
        exact (List.nil_sublist (rest.map Prod.fst)).cons₂ key
      · rw [iterLoop_cons_err hCv]
        exact ha
    | none =>
      by_cases hif : maxNode ≤ ((st.count + 1 : Nat) : Int)
      · refine ⟨[key], ?_, ?_⟩
        · simp only [List.map_cons]
          exact (List.nil_sublist (rest.map Prod.fst)).cons₂ key
        · rw [iterLoop_cons_ok hCv, if_pos hif]
          exact ha
      · obtain ⟨tail, hsub, heq⟩ :=
          ih ⟨st.pathes ++ [key], st.hashes ++ [value], st.startPath <|> some key,
              some key, st.count + 1, a⟩
        refine ⟨key :: tail, ?_, ?_⟩
        · simpa using hsub.cons₂ key
        · rw [iterLoop_cons_ok hCv, if_neg hif, heq]
          simp [ha]

/-- In an error-free walk, `startPath` and `endPath` stay in sync with the
head and last of the accumulated key list. -/
theorem iterLoop_start_end {α : Type} (limitAddr : Option Nat) (maxNode : Int)
    (C : α → Nat → Nat → α × Option Err) (pathsOf : α → List Nat)
    (hC : ∀ a key value, pathsOf (C a key value).1 = pathsOf a ++ [key])
    (leaves : List (Nat × Nat)) :
    ∀ st : WalkSt α,
      st.startPath = (pathsOf st.acc).head? →
      st.endPath = (pathsOf st.acc).getLast? →
      (iterLoop limitAddr maxNode C leaves st).2 = none →
      (iterLoop limitAddr maxNode C leaves st).1.startPath =
        (pathsOf (iterLoop limitAddr maxNode C leaves st).1.acc).head? ∧
      (iterLoop limitAddr maxNode C leaves st).1.endPath =
        (pathsOf (iterLoop limitAddr maxNode C leaves st).1.acc).getLast? := by
  induction leaves with
  | nil =>
    intro st hs he _
    rw [iterLoop_nil]
    exact ⟨hs, he⟩
  | cons kv rest ih =>
    obtain ⟨key, value⟩ := kv
    intro st hs he hok
    rcases hCv : C st.acc key value with ⟨a, oe⟩
    have ha : pathsOf a = pathsOf st.acc ++ [key] := by
      have := hC st.acc key value
      rwa [hCv] at this
    have hs' : (st.startPath <|> some key) = (pathsOf st.acc ++ [key]).head? := by
      cases hp : pathsOf st.acc with
      | nil => rw [hp] at hs; simp [hs]
      | cons x xs => rw [hp] at hs; simp [hs]
    have he' : some key = (pathsOf st.acc ++ [key]).getLast? := by
      rw [List.getLast?_concat]
    cases oe with
    | some e => rw [iterLoop_cons_err hCv] at hok; simp at hok
    | none =>
      rw [iterLoop_cons_ok hCv] at hok ⊢
      by_cases hif : maxNode ≤ ((st.count + 1 : Nat) : Int)
      · rw [if_pos hif]
        rw [ha] at *
        exact ⟨hs', he'⟩
      · rw [if_neg hif] at hok ⊢
        exact ih _ (by dsimp only; rw [ha]; exact hs') (by dsimp only; rw [ha]; exact he') hok

/-- The final walk state of `iterateWithLimit` is the state the visitor loop
produced; proof assembly does not touch it. -/
theorem iterateWithLimit_fst {α : Type} (srcTrie : Trie) (startAddr : Nat)
    (limitAddr : Option Nat) (maxNode : Int)
    (consumer : α → Nat → Nat → α × Option Err) (acc0 : α) :
    (iterateWithLimit srcTrie startAddr limitAddr maxNode consumer acc0).1 =
      (iterLoop limitAddr maxNode consumer (iterLeaves srcTrie startAddr)
        ⟨[], [], none, none, 0, acc0⟩).1 := by
  rcases hL : iterLoop limitAddr maxNode consumer (iterLeaves srcTrie startAddr)
      ⟨[], [], none, none, 0, acc0⟩ with ⟨st, oe⟩
  unfold iterateWithLimit
  dsimp only
  rw [hL]
  cases oe with
  | some e => rfl
  | none =>
    dsimp only
    repeat' split
    all_goals rfl

/-- If `iterateWithLimit` reports no error, neither did the visitor loop. -/
theorem iterateWithLimit_err_none {α : Type} (srcTrie : Trie) (startAddr : Nat)
    (limitAddr : Option Nat) (maxNode : Int)
    (consumer : α → Nat → Nat → α × Option Err) (acc0 : α) :
    (iterateWithLimit srcTrie startAddr limitAddr maxNode consumer acc0).2.2 = none →
      (iterLoop limitAddr maxNode consumer (iterLeaves srcTrie startAddr)
        ⟨[], [], none, none, 0, acc0⟩).2 = none := by
  rcases hL : iterLoop limitAddr maxNode consumer (iterLeaves srcTrie startAddr)
      ⟨[], [], none, none, 0, acc0⟩ with ⟨st, oe⟩
  unfold iterateWithLimit
  dsimp only
  rw [hL]
  cases oe with
  | some e => intro h; simp at h
  | none => intro _; rfl

/-- On any error path, `iterateWithLimit` returns a nil proof list. -/
theorem iterateWithLimit_proofs_nil_of_err {α : Type} (srcTrie : Trie)
    (startAddr : Nat) (limitAddr : Option Nat) (maxNode : Int)
    (consumer : α → Nat → Nat → α × Option Err) (acc0 : α) (e : Err) :
    (iterateWithLimit srcTrie startAddr limitAddr maxNode consumer acc0).2.2 = some e →
      (iterateWithLimit srcTrie startAddr limitAddr maxNode consumer acc0).2.1 = [] := by
  rcases hL : iterLoop limitAddr maxNode consumer (iterLeaves srcTrie startAddr)
      ⟨[], [], none, none, 0, acc0⟩ with ⟨st, oe⟩
  unfold iterateWithLimit
  dsimp only
  rw [hL]
  cases oe with
  | some e' => intro _; rfl
  | none =>
    dsimp only
    repeat' split
    all_goals intro h
    all_goals first
      | rfl
      | simp at h

/-! ### The proof merger -/

/-- The keys of a proof-node list. -/
def proofKeys (ps : List ProofNode) : List Nat := ps.map ProofNode.Key

theorem any_key_eq (left : List ProofNode) (k : Nat) :
    (left.any (fun node => node.Key == k)) = true ↔ k ∈ proofKeys left := by
  simp only [proofKeys, List.any_eq_true, beq_iff_eq, List.mem_map]

theorem mergeProofs_cons (left : List ProofNode) (p : ProofNode)
    (right : List ProofNode) :
    mergeProofs left (p :: right) =
      mergeProofs
        (if left.any (fun node => node.Key == p.Key) then left else left ++ [p])
        right := by
  unfold mergeProofs
  rw [List.foldl_cons]

/-- The key set of the merged proof is the union of the two key sets. -/
theorem mergeProofs_mem (right : List ProofNode) :
    ∀ (left : List ProofNode) (k : Nat),
      k ∈ proofKeys (mergeProofs left right) ↔
        k ∈ proofKeys left ∨ k ∈ proofKeys right := by
  induction right with
  | nil =>
    intro left k
    simp [mergeProofs, proofKeys]
  | cons p rest ih =>
    intro left k
    rw [mergeProofs_cons]
    by_cases hc : left.any (fun node => node.Key == p.Key) = true
    · rw [if_pos hc, ih]
      have hp : p.Key ∈ proofKeys left := (any_key_eq left p.Key).1 hc
      constructor
      · rintro (h | h)
        · exact Or.inl h
        · exact Or.inr (by simp [proofKeys] at h ⊢; exact Or.inr h)
      · rintro (h | h)
        · exact Or.inl h
        · simp only [proofKeys, List.map_cons, List.mem_cons] at h
          rcases h with h | h
          · exact Or.inl (h ▸ hp)
          · exact Or.inr (by simpa [proofKeys] using h)
    · rw [if_neg hc, ih]
      simp only [proofKeys, List.map_append, List.map_cons, List.map_nil,
        List.mem_append, List.mem_cons, List.mem_singleton, List.not_mem_nil,
        or_false]
      tauto

/-- If the left proof has pairwise-distinct keys, so does the merged proof. -/
theorem mergeProofs_nodup (right : List ProofNode) :
    ∀ left : List ProofNode, (proofKeys left).Nodup →
      (proofKeys (mergeProofs left right)).Nodup := by
  induction right with
  | nil =>
    intro left h
    simpa [mergeProofs] using h
  | cons p rest ih =>
    intro left h
    rw [mergeProofs_cons]
    by_cases hc : left.any (fun node => node.Key == p.Key) = true
    · rw [if_pos hc]
      exact ih left h
    · rw [if_neg hc]
      apply ih
      have hp : p.Key ∉ proofKeys left := fun hmem =>
        hc ((any_key_eq left p.Key).2 hmem)
      simp only [proofKeys, List.map_append, List.map_cons, List.map_nil]
      simp only [List.nodup_append, List.nodup_cons, List.nodup_nil,
        List.not_mem_nil, not_false_iff, and_true, List.mem_singleton]
      refine ⟨h, by simp, ?_⟩
      intro k hk hk1
      simp only [List.mem_singleton] at hk1
      exact hp (hk1 ▸ hk)

/-! ### Success-path facts about the whole bounded walk -/

/-- Invariant transfer to `iterateWithLimit`: any property of consumer state
and count preserved by successful consumer calls holds for the final state of
an error-free walk. -/
theorem iterateWithLimit_inv {α : Type} (srcTrie : Trie) (startAddr : Nat)
    (limitAddr : Option Nat) (maxNode : Int)
    (consumer : α → Nat → Nat → α × Option Err) (acc0 : α) (P : α → Nat → Prop)
    (hC : ∀ a key value, (consumer a key value).2 = none →
      ∀ n, P a n → P (consumer a key value).1 (n + 1))
    (h0 : P acc0 0)
    (hok : (iterateWithLimit srcTrie startAddr limitAddr maxNode consumer acc0).2.2 = none) :
    P (iterateWithLimit srcTrie startAddr limitAddr maxNode consumer acc0).1.acc
      (iterateWithLimit srcTrie startAddr limitAddr maxNode consumer acc0).1.count := by
  rw [iterateWithLimit_fst]
  exact iterLoop_inv limitAddr maxNode consumer P hC _ _ h0
    (iterateWithLimit_err_none srcTrie startAddr limitAddr maxNode consumer acc0 hok)

/-- A positive budget bounds the accepted count. -/
theorem iterateWithLimit_count_le {α : Type} (srcTrie : Trie) (startAddr : Nat)
    (limitAddr : Option Nat) (maxNode : Int)
    (consumer : α → Nat → Nat → α × Option Err) (acc0 : α)
    (h1 : 1 ≤ maxNode) :
    ((iterateWithLimit srcTrie startAddr limitAddr maxNode consumer acc0).1.count : Int)
      ≤ maxNode := by
  rw [iterateWithLimit_fst]
  exact iterLoop_count_le limitAddr maxNode consumer _ _ (by simp; omega)

/-- A budget of at most one (in particular any non-positive budget) still
lets the walk accept up to one leaf. -/
theorem iterateWithLimit_count_le_one {α : Type} (srcTrie : Trie) (startAddr : Nat)
    (limitAddr : Option Nat) (maxNode : Int)
    (consumer : α → Nat → Nat → α × Option Err) (acc0 : α)
    (h1 : maxNode ≤ 1) :
    (iterateWithLimit srcTrie startAddr limitAddr maxNode consumer acc0).1.count ≤ 1 := by
  rw [iterateWithLimit_fst]
  exact iterLoop_count_le_succ limitAddr maxNode consumer _ _ (by simp; omega)

/-- The accepted key list of a walk is a subsequence of the visited keys. -/
theorem iterateWithLimit_paths {α : Type} (srcTrie : Trie) (startAddr : Nat)
    (limitAddr : Option Nat) (maxNode : Int)
    (consumer : α → Nat → Nat → α × Option Err) (acc0 : α)
    (pathsOf : α → List Nat)
    (hC : ∀ a key value, pathsOf (consumer a key value).1 = pathsOf a ++ [key])
    (h0 : pathsOf acc0 = []) :
    ∃ tail, tail.Sublist ((iterLeaves srcTrie startAddr).map Prod.fst) ∧
      pathsOf (iterateWithLimit srcTrie startAddr limitAddr maxNode consumer acc0).1.acc
        = tail := by
  rw [iterateWithLimit_fst]
  obtain ⟨tail, hsub, heq⟩ :=
    iterLoop_paths_sublist limitAddr maxNode consumer pathsOf hC
      (iterLeaves srcTrie startAddr) ⟨[], [], none, none, 0, acc0⟩
  exact ⟨tail, hsub, by rw [heq]; dsimp only; rw [h0]; simp⟩

/-- In an error-free walk, `startPath`/`endPath` are the head and last of the
accepted key list. -/
theorem iterateWithLimit_start_end {α : Type} (srcTrie : Trie) (startAddr : Nat)
    (limitAddr : Option Nat) (maxNode : Int)
    (consumer : α → Nat → Nat → α × Option Err) (acc0 : α)
    (pathsOf : α → List Nat)
    (hC : ∀ a key value, pathsOf (consumer a key value).1 = pathsOf a ++ [key])
    (h0 : pathsOf acc0 = [])
    (hok : (iterateWithLimit srcTrie startAddr limitAddr maxNode consumer acc0).2.2 = none) :
    (iterateWithLimit srcTrie startAddr limitAddr maxNode consumer acc0).1.startPath =
      (pathsOf (iterateWithLimit srcTrie startAddr limitAddr maxNode consumer acc0).1.acc).head? ∧
    (iterateWithLimit srcTrie startAddr limitAddr maxNode consumer acc0).1.endPath =
      (pathsOf (iterateWithLimit srcTrie startAddr limitAddr maxNode consumer acc0).1.acc).getLast? := by
  rw [iterateWithLimit_fst]
  exact iterLoop_start_end limitAddr maxNode consumer pathsOf hC
    (iterLeaves srcTrie startAddr) ⟨[], [], none, none, 0, acc0⟩
    (by dsimp only; rw [h0]; rfl) (by dsimp only; rw [h0]; rfl)
    (iterateWithLimit_err_none srcTrie startAddr limitAddr maxNode consumer acc0 hok)

/-- When the visitor loop ends without error, `iterateWithLimit` is the loop
state paired with the assembled proof. -/
theorem iterateWithLimit_ok_eq {α : Type} (srcTrie : Trie) (startAddr : Nat)
    (limitAddr : Option Nat) (maxNode : Int)
    (consumer : α → Nat → Nat → α × Option Err) (acc0 : α) (st : WalkSt α)
    (hL : iterLoop limitAddr maxNode consumer (iterLeaves srcTrie startAddr)
      ⟨[], [], none, none, 0, acc0⟩ = (st, none)) :
    iterateWithLimit srcTrie startAddr limitAddr maxNode consumer acc0 =
      (st,
        if st.count = 1 then
          match st.startPath with
          | some p =>
            match srcTrie.ProofTo p with
            | .ok proof => (proof, none)
            | .error e => ([], some e)
          | none => ([], none)
        else if 1 < st.count then
          match st.startPath, st.endPath with
          | some p, some q =>
            match srcTrie.ProofTo p with
            | .error e => ([], some e)
            | .ok leftProof =>
              match srcTrie.ProofTo q with
              | .error e => ([], some e)
              | .ok rightProof => (mergeProofs leftProof rightProof, none)
          | _, _ => ([], none)
        else ([], none)) := by
  unfold iterateWithLimit
  dsimp only
  rw [hL]
  dsimp only
  repeat' split
  all_goals rfl

/-! ### Shapes of the three consumer closures -/

theorem storageRangeConsumer_snd (a : StorageRangeResult) (key value : Nat) :
    (storageRangeConsumer a key value).2 = none := rfl

theorem storageRangeConsumer_paths (a : StorageRangeResult) (key value : Nat) :
    (storageRangeConsumer a key value).1.Paths = a.Paths ++ [key] := rfl

theorem storageRangeConsumer_values (a : StorageRangeResult) (key value : Nat) :
    (storageRangeConsumer a key value).1.Values = a.Values ++ [value] := rfl

theorem classRangeConsumer_paths (s : State) (a : ClassRangeResult) (key value : Nat) :
    (classRangeConsumer s a key value).1.Paths = a.Paths ++ [key] := by
  unfold classRangeConsumer
  cases s.Class key <;> rfl

theorem classRangeConsumer_ok (s : State) (a : ClassRangeResult) (key value : Nat)
    (h : (classRangeConsumer s a key value).2 = none) :
    (classRangeConsumer s a key value).1.ClassHashes = a.ClassHashes ++ [value] ∧
    (classRangeConsumer s a key value).1.Classes.length = a.Classes.length + 1 := by
  unfold classRangeConsumer at h ⊢
  rcases hc : s.Class key with e | cl <;> rw [hc] at h
  · simp at h
  · exact ⟨rfl, by simp⟩

theorem addressRangeConsumer_paths (s : State) (a : AddressRangeResult) (key value : Nat) :
    (addressRangeConsumer s a key value).1.Paths = a.Paths ++ [key] := by
  unfold addressRangeConsumer
  rcases s.ContractClassHash key with e | ch
  · rfl
  dsimp only
  rcases s.ContractNonce key with e | n
  · rfl
  dsimp only
  rcases s.Contract key with e | c
  · rfl
  dsimp only
  rcases c.Root with e | croot
  · rfl
  · rfl

theorem addressRangeConsumer_ok (s : State) (a : AddressRangeResult) (key value : Nat)
    (h : (addressRangeConsumer s a key value).2 = none) :
    (addressRangeConsumer s a key value).1.Hashes = a.Hashes ++ [value] ∧
    (addressRangeConsumer s a key value).1.Leaves.length = a.Leaves.length + 1 := by
  unfold addressRangeConsumer at h ⊢
  rcases hc : s.ContractClassHash key with e | ch <;> rw [hc] at h
  · simp at h
  dsimp only at h ⊢
  rcases hn : s.ContractNonce key with e | n <;> rw [hn] at h
  · simp at h
  dsimp only at h ⊢
  rcases hk : s.Contract key with e | c <;> rw [hk] at h
  · simp at h
  dsimp only at h ⊢
  rcases hr : c.Root with e | croot <;> rw [hr] at h
  · simp at h
  · exact ⟨rfl, by simp⟩

/-! ### Success and error shapes of the range calls -/

theorem GetClassRange_success (s : State) (a start : Nat) (lim : Option Nat)
    (r : ClassRangeResult)
    (h : GetClassRange s a start lim = (some r, none)) :
    ∃ ctrie, s.classesTrie = Except.ok ctrie ∧
      (iterateWithLimit ctrie start lim maxNodePerRequest
        (classRangeConsumer s) ⟨[], [], [], []⟩).2.2 = none ∧
      r = { (iterateWithLimit ctrie start lim maxNodePerRequest
              (classRangeConsumer s) ⟨[], [], [], []⟩).1.acc with
            Proofs := (iterateWithLimit ctrie start lim maxNodePerRequest
              (classRangeConsumer s) ⟨[], [], [], []⟩).2.1 } := by
  unfold GetClassRange at h
  rcases hct : s.classesTrie with e | ctrie
  · rw [hct] at h
    simp at h
  rw [hct] at h
  dsimp only at h
  rcases hI : iterateWithLimit ctrie start lim maxNodePerRequest
      (classRangeConsumer s) ⟨[], [], [], []⟩ with ⟨st, proofs, err⟩
  rw [hI] at h
  dsimp only at h
  simp only [Prod.mk.injEq, Option.some.injEq] at h
  refine ⟨ctrie, rfl, ?_, ?_⟩
  · rw [hI]
    exact h.2
  · rw [hI]
    exact h.1.symm

theorem GetClassRange_err (s : State) (a start : Nat) (lim : Option Nat)
    (r : ClassRangeResult) (e : Err)
    (h : GetClassRange s a start lim = (some r, some e)) :
    r.Proofs = [] := by
  unfold GetClassRange at h
  rcases hct : s.classesTrie with e2 | ctrie
  · rw [hct] at h
    simp at h
  rw [hct] at h
  dsimp only at h
  rcases hI : iterateWithLimit ctrie start lim maxNodePerRequest
      (classRangeConsumer s) ⟨[], [], [], []⟩ with ⟨st, proofs, err⟩
  rw [hI] at h
  dsimp only at h
  simp only [Prod.mk.injEq, Option.some.injEq] at h
  have hnil : proofs = [] := by
    have := iterateWithLimit_proofs_nil_of_err ctrie start lim maxNodePerRequest
      (classRangeConsumer s) ⟨[], [], [], []⟩ e (by rw [hI]; exact h.2)
    rw [hI] at this
    exact this
  rw [← h.1, hnil]

theorem GetAddressRange_success (s : State) (a start : Nat) (lim : Option Nat)
    (r : AddressRangeResult)
    (h : GetAddressRange s a start lim = (some r, none)) :
    ∃ strie, s.storage = Except.ok strie ∧
      (iterateWithLimit strie start lim maxNodePerRequest
        (addressRangeConsumer s) ⟨[], [], [], []⟩).2.2 = none ∧
      r = { (iterateWithLimit strie start lim maxNodePerRequest
              (addressRangeConsumer s) ⟨[], [], [], []⟩).1.acc with
            Proofs := (iterateWithLimit strie start lim maxNodePerRequest
              (addressRangeConsumer s) ⟨[], [], [], []⟩).2.1 } := by
  unfold GetAddressRange at h
  rcases hst : s.storage with e | strie
  · rw [hst] at h
    simp at h
  rw [hst] at h
  dsimp only at h
  rcases hI : iterateWithLimit strie start lim maxNodePerRequest
      (addressRangeConsumer s) ⟨[], [], [], []⟩ with ⟨st, proofs, err⟩
  rw [hI] at h
  dsimp only at h
  simp only [Prod.mk.injEq, Option.some.injEq] at h
  refine ⟨strie, rfl, ?_, ?_⟩
  · rw [hI]
    exact h.2
  · rw [hI]
    exact h.1.symm

theorem GetAddressRange_err (s : State) (a start : Nat) (lim : Option Nat)
    (r : AddressRangeResult) (e : Err)
    (h : GetAddressRange s a start lim = (some r, some e)) :
    r.Proofs = [] := by
  unfold GetAddressRange at h
  rcases hst : s.storage with e2 | strie
  · rw [hst] at h
    simp at h
  rw [hst] at h
  dsimp only at h
  rcases hI : iterateWithLimit strie start lim maxNodePerRequest
      (addressRangeConsumer s) ⟨[], [], [], []⟩ with ⟨st, proofs, err⟩
  rw [hI] at h
  dsimp only at h
  simp only [Prod.mk.injEq, Option.some.injEq] at h
  have hnil : proofs = [] := by
    have := iterateWithLimit_proofs_nil_of_err strie start lim maxNodePerRequest
      (addressRangeConsumer s) ⟨[], [], [], []⟩ e (by rw [hI]; exact h.2)
    rw [hI] at this
    exact this
  rw [← h.1, hnil]

theorem handleStorageRangeRequest_success (s : State) (req : StorageRangeRequest)
    (nl : Int) (r : StorageRangeResult)
    (h : handleStorageRangeRequest s req nl = (some r, none)) :
    ∃ contract strie, s.Contract req.Path = Except.ok contract ∧
      contract.StorageTrie = Except.ok strie ∧
      strie.Root = Except.ok req.Hash ∧
      (iterateWithLimit strie req.StartAddr req.LimitAddr nl
        storageRangeConsumer ⟨[], [], []⟩).2.2 = none ∧
      r = { (iterateWithLimit strie req.StartAddr req.LimitAddr nl
              storageRangeConsumer ⟨[], [], []⟩).1.acc with
            Proofs := (iterateWithLimit strie req.StartAddr req.LimitAddr nl
              storageRangeConsumer ⟨[], [], []⟩).2.1 } := by
  unfold handleStorageRangeRequest at h
  rcases hc : s.Contract req.Path with e | contract
  · rw [hc] at h
    simp at h
  rw [hc] at h
  dsimp only at h
  rcases hst : contract.StorageTrie with e | strie
  · rw [hst] at h
    simp at h
  rw [hst] at h
  dsimp only at h
  rcases hrt : strie.Root with e | sroot
  · rw [hrt] at h
    simp at h
  rw [hrt] at h
  dsimp only at h
  by_cases hrq : sroot = req.Hash
  · rw [if_pos hrq] at h
    rcases hI : iterateWithLimit strie req.StartAddr req.LimitAddr nl
        storageRangeConsumer ⟨[], [], []⟩ with ⟨st, proofs, err⟩
    rw [hI] at h
    dsimp only at h
    simp only [Prod.mk.injEq, Option.some.injEq] at h
    refine ⟨contract, strie, rfl, hst, by rw [hrt, hrq], ?_, ?_⟩
    · rw [hI]
      exact h.2
    · rw [hI]
      exact h.1.symm
  · rw [if_neg hrq] at h
    simp at h

theorem handleStorageRangeRequest_err (s : State) (req : StorageRangeRequest)
    (nl : Int) (r : StorageRangeResult) (e : Err)
    (h : handleStorageRangeRequest s req nl = (some r, some e)) :
    r.Proofs = [] := by
  unfold handleStorageRangeRequest at h
  rcases hc : s.Contract req.Path with e2 | contract
  · rw [hc] at h
    simp at h
  rw [hc] at h
  dsimp only at h
  rcases hst : contract.StorageTrie with e2 | strie
  · rw [hst] at h
    simp at h
  rw [hst] at h
  dsimp only at h
  rcases hrt : strie.Root with e2 | sroot
  · rw [hrt] at h
    simp at h
  rw [hrt] at h
  dsimp only at h
  by_cases hrq : sroot = req.Hash
  · rw [if_pos hrq] at h
    rcases hI : iterateWithLimit strie req.StartAddr req.LimitAddr nl
        storageRangeConsumer ⟨[], [], []⟩ with ⟨st, proofs, err⟩
    rw [hI] at h
    dsimp only at h
    simp only [Prod.mk.injEq, Option.some.injEq] at h
    have hnil : proofs = [] := by
      have := iterateWithLimit_proofs_nil_of_err strie req.StartAddr req.LimitAddr
        nl storageRangeConsumer ⟨[], [], []⟩ e (by rw [hI]; exact h.2)
      rw [hI] at this
      exact this
    rw [← h.1, hnil]
  · rw [if_neg hrq] at h
    simp at h

/-- On success with a positive node limit, a storage-range window respects
the limit. -/
theorem handle_paths_len_le (s : State) (req : StorageRangeRequest) (nl : Int)
    (r : StorageRangeResult) (h1 : 1 ≤ nl)
    (h : handleStorageRangeRequest s req nl = (some r, none)) :
    (r.Paths.length : Int) ≤ nl := by
  obtain ⟨contract, strie, hc, hst, hrt, hok, hr⟩ :=
    handleStorageRangeRequest_success s req nl r h
  have hinv := iterateWithLimit_inv strie req.StartAddr req.LimitAddr nl
    storageRangeConsumer ⟨[], [], []⟩ (fun a n => a.Paths.length = n)
    (fun a key value _ n hp => by
      dsimp only at hp ⊢
      rw [storageRangeConsumer_paths]
      simp [hp])
    rfl hok
  have hcnt := iterateWithLimit_count_le strie req.StartAddr req.LimitAddr nl
    storageRangeConsumer ⟨[], [], []⟩ h1
  rw [hr]
  dsimp only at hinv ⊢
  rw [hinv]
  exact hcnt

/-! ### The batch loop of GetContractRange -/

theorem storageLoop_nil (s : State) (cur : Int) (acc : List StorageRangeResult) :
    storageLoop s [] cur acc = (some acc, none) := rfl

theorem storageLoop_cons (s : State) (req : StorageRangeRequest)
    (rest : List StorageRangeRequest) (cur : Int) (acc : List StorageRangeResult) :
    storageLoop s (req :: rest) cur acc =
      match handleStorageRangeRequest s req cur with
      | (_, some e) => (none, some e)
      | (none, none) => (none, none)
      | (some response, none) =>
        if cur - (response.Paths.length : Int) ≤ 0 then (some (acc ++ [response]), none)
        else storageLoop s rest (cur - (response.Paths.length : Int)) (acc ++ [response]) := by
  rw [storageLoop]

theorem sumLen_append (acc : List StorageRangeResult) (r : StorageRangeResult) :
    sumLen (acc ++ [r]) = sumLen acc + r.Paths.length := by
  simp [sumLen]

/-- If the batch loop returns an error, it returns no result list at all. -/
theorem storageLoop_err_none (s : State) :
    ∀ (reqs : List StorageRangeRequest) (cur : Int) (acc : List StorageRangeResult)
      (e : Err), (storageLoop s reqs cur acc).2 = some e →
      (storageLoop s reqs cur acc).1 = none := by
  intro reqs
  induction reqs with
  | nil =>
    intro cur acc e h
    rw [storageLoop_nil] at h
    simp at h
  | cons req rest ih =>
    intro cur acc e h
    rw [storageLoop_cons] at h ⊢
    rcases hH : handleStorageRangeRequest s req cur with ⟨or, oe⟩
    rw [hH] at h
    cases oe with
    | some e2 => cases or <;> rfl
    | none =>
      cases or with
      | none => rfl
      | some resp =>
        dsimp only at h ⊢
        by_cases hif : cur - (resp.Paths.length : Int) ≤ 0
        · rw [if_pos hif] at h
          simp at h
        · rw [if_neg hif] at h ⊢
          exact ih _ _ e h

/-- Budget accounting: a successful batch run adds at most `cur` leaves. -/
theorem storageLoop_sum (s : State) :
    ∀ (reqs : List StorageRangeRequest) (cur : Int) (acc : List StorageRangeResult)
      (out : List StorageRangeResult), 1 ≤ cur →
      storageLoop s reqs cur acc = (some out, none) →
      (sumLen out : Int) ≤ (sumLen acc : Int) + cur := by
  intro reqs
  induction reqs with
  | nil =>
    intro cur acc out h1 h
    rw [storageLoop_nil] at h
    simp only [Prod.mk.injEq, Option.some.injEq] at h
    rw [← h.1]
    omega
  | cons req rest ih =>
    intro cur acc out h1 h
    rw [storageLoop_cons] at h
    rcases hH : handleStorageRangeRequest s req cur with ⟨or, oe⟩
    rw [hH] at h
    cases oe with
    | some e2 => simp at h
    | none =>
      cases or with
      | none => simp at h
      | some resp =>
        dsimp only at h
        have hlen : (resp.Paths.length : Int) ≤ cur :=
          handle_paths_len_le s req cur resp h1 hH
        by_cases hif : cur - (resp.Paths.length : Int) ≤ 0
        · rw [if_pos hif] at h
          simp only [Prod.mk.injEq, Option.some.injEq] at h
          rw [← h.1, sumLen_append]
          push_cast
          omega
        · rw [if_neg hif] at h
          have := ih (cur - (resp.Paths.length : Int)) (acc ++ [resp]) out
            (by omega) h
          rw [sumLen_append] at this
          push_cast at this ⊢
          omega

/-- A successful batch produces at most one window per input request. -/
theorem storageLoop_len (s : State) :
    ∀ (reqs : List StorageRangeRequest) (cur : Int) (acc : List StorageRangeResult)
      (out : List StorageRangeResult),
      storageLoop s reqs cur acc = (some out, none) →
      out.length ≤ acc.length + reqs.length := by
  intro reqs
  induction reqs with
  | nil =>
    intro cur acc out h
    rw [storageLoop_nil] at h
    simp only [Prod.mk.injEq, Option.some.injEq] at h
    rw [← h.1]
    simp
  | cons req rest ih =>
    intro cur acc out h
    rw [storageLoop_cons] at h
    rcases hH : handleStorageRangeRequest s req cur with ⟨or, oe⟩
    rw [hH] at h
    cases oe with
    | some e2 => simp at h
    | none =>
      cases or with
      | none => simp at h
      | some resp =>
        dsimp only at h
        by_cases hif : cur - (resp.Paths.length : Int) ≤ 0
        · rw [if_pos hif] at h
          simp only [Prod.mk.injEq, Option.some.injEq] at h
          rw [← h.1]
          simp only [List.length_append, List.length_cons, List.length_nil]
          omega
        · rw [if_neg hif] at h
          have := ih (cur - (resp.Paths.length : Int)) (acc ++ [resp]) out h
          simp only [List.length_append, List.length_cons, List.length_nil] at this ⊢
          omega

/-- Once a successful batch run has consumed its whole budget, appending
further requests to the input does not change the result. -/
theorem storageLoop_append (s : State) :
    ∀ (reqs : List StorageRangeRequest) (cur : Int) (acc : List StorageRangeResult)
      (out : List StorageRangeResult) (reqs₂ : List StorageRangeRequest),
      1 ≤ cur →
      storageLoop s reqs cur acc = (some out, none) →
      cur ≤ (sumLen out : Int) - (sumLen acc : Int) →
      storageLoop s (reqs ++ reqs₂) cur acc = (some out, none) := by
  intro reqs
  induction reqs with
  | nil =>
    intro cur acc out reqs₂ h1 h h2
    rw [storageLoop_nil] at h
    simp only [Prod.mk.injEq, Option.some.injEq] at h
    rw [← h.1] at h2
    omega
  | cons req rest ih =>
    intro cur acc out reqs₂ h1 h h2
    simp only [List.cons_append]
    rw [storageLoop_cons] at h ⊢
    rcases hH : handleStorageRangeRequest s req cur with ⟨or, oe⟩
    rw [hH] at h
    cases oe with
    | some e2 => simp at h
    | none =>
      cases or with
      | none => simp at h
      | some resp =>
        dsimp only at h ⊢
        by_cases hif : cur - (resp.Paths.length : Int) ≤ 0
        · rw [if_pos hif] at h ⊢
          exact h
        · rw [if_neg hif] at h ⊢
          refine ih (cur - (resp.Paths.length : Int)) (acc ++ [resp]) out reqs₂
            (by omega) h ?_
          rw [sumLen_append]
          push_cast
          omega

/-- Accepted keys of a walk over a key-sorted trie are strictly increasing. -/
theorem walk_paths_pairwise {α : Type} (t : Trie) (start : Nat) (lim : Option Nat)
    (maxN : Int) (C : α → Nat → Nat → α × Option Err) (acc0 : α)
    (pathsOf : α → List Nat)
    (hC : ∀ a key value, pathsOf (C a key value).1 = pathsOf a ++ [key])
    (h0 : pathsOf acc0 = [])
    (hleaves : t.leaves.Pairwise (fun x y => x.1 < y.1)) :
    (pathsOf (iterateWithLimit t start lim maxN C acc0).1.acc).Pairwise (· < ·) := by
  obtain ⟨tail, hsub, htail⟩ := iterateWithLimit_paths t start lim maxN C acc0 pathsOf hC h0
  rw [htail]
  have h1 : (iterLeaves t start).Pairwise (fun x y => x.1 < y.1) := by
    unfold iterLeaves
    exact hleaves.filter _
  exact (List.pairwise_map.mpr h1).sublist hsub

/-! ### Claim theorems -/

/-- C1 (code bug): the boundary guard `key.Cmp(limitAddr) > 1 && count > 0`
is unsatisfiable, so the walk never stops at the limit key.  At the failing
input — trie leaves at keys 1 and 2, `startKey = 0`, `limitKey = 1` — the
guard is false at the visit of key 2 even though 2 strictly exceeds the
limit and one leaf was already accepted, and the walk accepts both leaves
instead of stopping with `[1]`. -/
theorem claim1_limit_check_dead :
    limitExceeded (some 1) 2 1 = false ∧
    (iterateWithLimit cTrie2 0 (some 1) 16384 consPaths ([] : List Nat)).1.acc
      = [1, 2] := by
  constructor
  · rfl
  · decide

/-- C2 counterexample: calling the walk with `maxCount = 0` on a non-empty
trie yields a one-leaf window with no error, not an empty window, so
`len(paths) <= maxCount` fails. -/
theorem claim2_zero_budget_cex :
    handleStorageRangeRequest cState req1 0 =
      (some ⟨[5], [50], [⟨0, 100⟩, ⟨5, 5⟩]⟩, none) ∧
    ¬ ((1 : Int) ≤ 0) := by
  constructor
  · decide
  · decide

/-- C2 amended: for every error-free walk whose consumer records exactly one
leaf per accepted key, `len(paths) <= maxCount` holds whenever
`maxCount >= 1`; with `maxCount <= 0` the walk still accepts up to one leaf
(a one-leaf window on a non-empty trie), not zero. -/
theorem claim2_maxcount_bound {α : Type} (srcTrie : Trie) (startAddr : Nat)
    (limitAddr : Option Nat) (maxNode : Int)
    (consumer : α → Nat → Nat → α × Option Err) (acc0 : α) (plen : α → Nat)
    (hC : ∀ a key value, (consumer a key value).2 = none →
      plen (consumer a key value).1 = plen a + 1)
    (h0 : plen acc0 = 0)
    (hok : (iterateWithLimit srcTrie startAddr limitAddr maxNode consumer acc0).2.2 = none) :
    (1 ≤ maxNode →
      ((plen (iterateWithLimit srcTrie startAddr limitAddr maxNode consumer acc0).1.acc : Nat) : Int) ≤ maxNode) ∧
    (maxNode ≤ 0 →
      plen (iterateWithLimit srcTrie startAddr limitAddr maxNode consumer acc0).1.acc ≤ 1) := by
  have hinv := iterateWithLimit_inv srcTrie startAddr limitAddr maxNode consumer acc0
    (fun a n => plen a = n)
    (fun a key value he n hp => by
      dsimp only at hp ⊢
      rw [hC a key value he, hp]) h0 hok
  dsimp only at hinv
  constructor
  · intro h1
    rw [hinv]
    exact iterateWithLimit_count_le srcTrie startAddr limitAddr maxNode consumer acc0 h1
  · intro h1
    rw [hinv]
    exact iterateWithLimit_count_le_one srcTrie startAddr limitAddr maxNode consumer acc0
      (by omega)

theorem claim2_maxcount_bound_witness :
    (((List.length (iterateWithLimit cTrie3 0 none 2 consPaths ([] : List Nat)).1.acc : Nat) : Int) ≤ 2) ∧
    List.length (iterateWithLimit cTrie1 0 none 0 consPaths ([] : List Nat)).1.acc ≤ 1 := by
  constructor
  · exact (claim2_maxcount_bound cTrie3 0 none 2 consPaths [] List.length
      (fun a key value _ => by simp [consPaths]) rfl (by decide)).1 (by decide)
  · exact (claim2_maxcount_bound cTrie1 0 none 0 consPaths [] List.length
      (fun a key value _ => by simp [consPaths]) rfl (by decide)).2 (by decide)

/-- C4 counterexample: when `left` itself holds two nodes with the same
`Key`, the merged proof keeps both, so the no-duplicate guarantee fails for
arbitrary input lists. -/
theorem claim4_merge_nodup_cex :
    proofKeys (mergeProofs [⟨1, 0⟩, ⟨1, 1⟩] []) = [1, 1] ∧
    ¬ (proofKeys (mergeProofs [⟨1, 0⟩, ⟨1, 1⟩] [])).Nodup := by
  constructor
  · rfl
  · decide

/-- C4 amended: `merge` appends exactly the right-nodes whose key is absent
from the accumulated result; provided `left` has pairwise-distinct keys, the
result has pairwise-distinct keys, and in all cases the key set of the
result is the union of the two key sets. -/
theorem claim4_merge_props (left right : List ProofNode)
    (h : (proofKeys left).Nodup) :
    (proofKeys (mergeProofs left right)).Nodup ∧
    ∀ k, k ∈ proofKeys (mergeProofs left right) ↔
      k ∈ proofKeys left ∨ k ∈ proofKeys right :=
  ⟨mergeProofs_nodup right left h, fun k => mergeProofs_mem right left k⟩

theorem claim4_merge_props_witness :
    (proofKeys (mergeProofs [⟨0, 100⟩, ⟨1, 1⟩] [⟨0, 100⟩, ⟨3, 3⟩])).Nodup ∧
    (3 ∈ proofKeys (mergeProofs [⟨0, 100⟩, ⟨1, 1⟩] [⟨0, 100⟩, ⟨3, 3⟩]) ↔
      3 ∈ proofKeys [⟨0, 100⟩, ⟨1, 1⟩] ∨ 3 ∈ proofKeys [⟨0, 100⟩, ⟨3, 3⟩]) := by
  have h := claim4_merge_props [⟨0, 100⟩, ⟨1, 1⟩] [⟨0, 100⟩, ⟨3, 3⟩] (by decide)
  exact ⟨h.1, h.2 3⟩

/-- C5: over a successful `GetContractRange`, the total number of returned
leaves stays within the shared 16384 budget, at most one window is produced
per input request (in order), and once the budget is exhausted any further
input requests are ignored without error. -/
theorem claim5_contract_range_budget (s : State) (root : Nat)
    (reqs reqs₂ : List StorageRangeRequest) (out : List StorageRangeResult)
    (h : GetContractRange s root reqs = (some out, none)) :
    (sumLen out : Int) ≤ maxNodePerRequest ∧
    out.length ≤ reqs.length ∧
    (maxNodePerRequest ≤ (sumLen out : Int) →
      GetContractRange s root (reqs ++ reqs₂) = (some out, none)) := by
  have hl : storageLoop s reqs maxNodePerRequest [] = (some out, none) := h
  refine ⟨?_, ?_, ?_⟩
  · have := storageLoop_sum s reqs maxNodePerRequest [] out
      (by norm_num [maxNodePerRequest]) hl
    simpa [sumLen] using this
  · simpa using storageLoop_len s reqs maxNodePerRequest [] out hl
  · intro hge
    exact storageLoop_append s reqs maxNodePerRequest [] out reqs₂
      (by norm_num [maxNodePerRequest]) hl (by simpa [sumLen] using hge)

theorem claim5_contract_range_budget_witness :
    (sumLen [⟨[5], [50], [⟨0, 100⟩, ⟨5, 5⟩]⟩] : Int) ≤ maxNodePerRequest ∧
    ([⟨[5], [50], [⟨0, 100⟩, ⟨5, 5⟩]⟩] : List StorageRangeResult).length
      ≤ [req1].length := by
  have h := claim5_contract_range_budget cState 0 [req1] []
    [⟨[5], [50], [⟨0, 100⟩, ⟨5, 5⟩]⟩] (by decide)
  exact ⟨h.1, h.2.1⟩

/-- C6: a storage-root mismatch on any request makes that request fail with
a root-mismatch error, makes the whole batch call return that error with no
result list (whatever had been accumulated), and in general an erroring
`GetContractRange` returns no list at all. -/
theorem claim6_root_mismatch_aborts (s : State) (req : StorageRangeRequest)
    (nl cur : Int) (contract : Contract) (strie : Trie) (sroot : Nat)
    (rest : List StorageRangeRequest) (acc : List StorageRangeResult)
    (root : Nat) (reqs : List StorageRangeRequest)
    (h1 : s.Contract req.Path = Except.ok contract)
    (h2 : contract.StorageTrie = Except.ok strie)
    (h3 : strie.Root = Except.ok sroot)
    (h4 : sroot ≠ req.Hash) :
    handleStorageRangeRequest s req nl =
      (none, some (Err.storageRootMismatch sroot req.Hash)) ∧
    storageLoop s (req :: rest) cur acc =
      (none, some (Err.storageRootMismatch sroot req.Hash)) ∧
    (∀ e, (GetContractRange s root reqs).2 = some e →
      (GetContractRange s root reqs).1 = none) := by
  have hh : ∀ m : Int, handleStorageRangeRequest s req m =
      (none, some (Err.storageRootMismatch sroot req.Hash)) := by
    intro m
    unfold handleStorageRangeRequest
    rw [h1]
    dsimp only
    rw [h2]
    dsimp only
    rw [h3]
    dsimp only
    rw [if_neg h4]
  refine ⟨hh nl, ?_, ?_⟩
  · rw [storageLoop_cons, hh cur]
  · exact fun e h => storageLoop_err_none s reqs maxNodePerRequest [] e h

theorem claim6_root_mismatch_aborts_witness :
    handleStorageRangeRequest cState reqBad 16384 =
      (none, some (Err.storageRootMismatch 100 99)) ∧
    GetContractRange cState 0 [reqBad] =
      (none, some (Err.storageRootMismatch 100 99)) := by
  have h := claim6_root_mismatch_aborts cState reqBad 16384 maxNodePerRequest
    cContract1 cTrie1 100 [] [] 0 [reqBad] rfl rfl rfl (by decide)
  exact ⟨h.1, h.2.1⟩

/-- C7 counterexample: when the class-body lookup fails on the first leaf,
`GetClassRange` surfaces the error together with a populated response
carrying the partially accumulated window — partial results are not
discarded. -/
theorem claim7_partial_result_cex :
    GetClassRange cStateClassErr 0 0 none =
      (some ⟨[1], [10], [], []⟩, some (Err.external 7)) ∧
    (GetClassRange cStateClassErr 0 0 none).1 ≠ none := by
  constructor
  · decide
  · decide

/-- C7 amended: every traversal or lookup error is surfaced to the caller,
and `GetContractRange` then returns no result list; but the single-range
calls return the error together with a response object whose proof list is
nil and which retains the leaves accepted before the error. -/
theorem claim7_error_propagation (s : State) (a start : Nat) (lim : Option Nat)
    (req : StorageRangeRequest) (nl : Int) (root : Nat)
    (reqs : List StorageRangeRequest) :
    (∀ r e, GetClassRange s a start lim = (some r, some e) → r.Proofs = []) ∧
    (∀ r e, GetAddressRange s a start lim = (some r, some e) → r.Proofs = []) ∧
    (∀ r e, handleStorageRangeRequest s req nl = (some r, some e) → r.Proofs = []) ∧
    (∀ e, (GetContractRange s root reqs).2 = some e →
      (GetContractRange s root reqs).1 = none) := by
  refine ⟨?_, ?_, ?_, ?_⟩
  · exact fun r e h => GetClassRange_err s a start lim r e h
  · exact fun r e h => GetAddressRange_err s a start lim r e h
  · exact fun r e h => handleStorageRangeRequest_err s req nl r e h
  · exact fun e h => storageLoop_err_none s reqs maxNodePerRequest [] e h

theorem claim7_error_propagation_witness :
    (⟨[1], [10], [], []⟩ : ClassRangeResult).Proofs = [] ∧
    (GetContractRange cState 0 [reqBad]).1 = none := by
  have h := claim7_error_propagation cStateClassErr 0 0 none req1 16384 0 [reqBad]
  have h2 := claim7_error_propagation cState 0 0 none req1 16384 0 [reqBad]
  exact ⟨h.1 ⟨[1], [10], [], []⟩ (Err.external 7) (by decide),
    h2.2.2.2 (Err.storageRootMismatch 100 99) (by decide)⟩

/-- C9: `GetTrieRootAt` returns exactly the roots of the snapshot storage
trie and class trie, and is insensitive to the `blockHash` argument. -/
theorem claim9_trie_root_info (s : State) (b b1 b2 : Nat) (strie ctrie : Trie)
    (sr cr : Nat) (h1 : s.storage = Except.ok strie)
    (h2 : strie.Root = Except.ok sr) (h3 : s.classesTrie = Except.ok ctrie)
    (h4 : ctrie.Root = Except.ok cr) :
    GetTrieRootAt s b = (some ⟨sr, cr⟩, none) ∧
    GetTrieRootAt s b1 = GetTrieRootAt s b2 := by
  constructor
  · unfold GetTrieRootAt
    rw [h1]
    dsimp only
    rw [h2]
    dsimp only
    rw [h3]
    dsimp only
    rw [h4]
  · rfl

theorem claim9_trie_root_info_witness :
    GetTrieRootAt cState 42 = (some ⟨100, 100⟩, none) ∧
    GetTrieRootAt cState 1 = GetTrieRootAt cState 2 :=
  claim9_trie_root_info cState 42 1 2 cTrie3 cTrie3 100 100 rfl rfl rfl rfl

/-- C10: `GetClassRange` ignores its `classTrieRootHash` argument and
`GetAddressRange` ignores its `rootHash` argument: each opens the
snapshot trie, so two calls differing only in that argument coincide. -/
theorem claim10_root_args_ignored (s : State) (r1 r2 startAddr : Nat)
    (limitAddr : Option Nat) :
    GetClassRange s r1 startAddr limitAddr = GetClassRange s r2 startAddr limitAddr ∧
    GetAddressRange s r1 startAddr limitAddr = GetAddressRange s r2 startAddr limitAddr :=
  ⟨rfl, rfl⟩

/-- C3: after a successful walk the returned proof is determined by the
accepted-leaf count: zero leaves give an empty proof, exactly one leaf gives
`ProofTo(firstKey)` exactly, and more than one leaf gives
`merge(ProofTo(firstKey), ProofTo(lastKey))`, where `firstKey`/`lastKey` are
the head and last of the accepted key list. -/
theorem claim3_proof_assembly {α : Type} (srcTrie : Trie) (startAddr : Nat)
    (limitAddr : Option Nat) (maxNode : Int)
    (consumer : α → Nat → Nat → α × Option Err) (acc0 : α) (pathsOf : α → List Nat)
    (hC : ∀ a key value, pathsOf (consumer a key value).1 = pathsOf a ++ [key])
    (h0 : pathsOf acc0 = [])
    (hok : (iterateWithLimit srcTrie startAddr limitAddr maxNode consumer acc0).2.2 = none) :
    ((iterateWithLimit srcTrie startAddr limitAddr maxNode consumer acc0).1.count = 0 →
      (iterateWithLimit srcTrie startAddr limitAddr maxNode consumer acc0).2.1 = []) ∧
    (∀ p, (iterateWithLimit srcTrie startAddr limitAddr maxNode consumer acc0).1.count = 1 →
      (pathsOf (iterateWithLimit srcTrie startAddr limitAddr maxNode consumer acc0).1.acc).head?
        = some p →
      srcTrie.ProofTo p =
        Except.ok (iterateWithLimit srcTrie startAddr limitAddr maxNode consumer acc0).2.1) ∧
    (∀ p q, 2 ≤ (iterateWithLimit srcTrie startAddr limitAddr maxNode consumer acc0).1.count →
      (pathsOf (iterateWithLimit srcTrie startAddr limitAddr maxNode consumer acc0).1.acc).head?
        = some p →
      (pathsOf (iterateWithLimit srcTrie startAddr limitAddr maxNode consumer acc0).1.acc).getLast?
        = some q →
      ∃ lp rp, srcTrie.ProofTo p = Except.ok lp ∧ srcTrie.ProofTo q = Except.ok rp ∧
        (iterateWithLimit srcTrie startAddr limitAddr maxNode consumer acc0).2.1
          = mergeProofs lp rp) := by
  have hse := iterateWithLimit_start_end srcTrie startAddr limitAddr maxNode consumer
    acc0 pathsOf hC h0 hok
  rcases hL : iterLoop limitAddr maxNode consumer (iterLeaves srcTrie startAddr)
      ⟨[], [], none, none, 0, acc0⟩ with ⟨st, oe⟩
  have hoe : oe = none := by
    have h := iterateWithLimit_err_none srcTrie startAddr limitAddr maxNode consumer acc0 hok
    rw [hL] at h
    exact h
  subst hoe
  have heq := iterateWithLimit_ok_eq srcTrie startAddr limitAddr maxNode consumer acc0 st hL
  rw [heq] at hse hok ⊢
  dsimp only at hse hok ⊢
  obtain ⟨hsp, hep⟩ := hse
  refine ⟨?_, ?_, ?_⟩
  · intro hc0
    rw [if_neg (by omega), if_neg (by omega)]
  · intro p hc1 hhead
    rw [if_pos hc1] at hok ⊢
    rw [hsp, hhead] at hok ⊢
    dsimp only at hok ⊢
    rcases hPT : srcTrie.ProofTo p with e | proof
    · rw [hPT] at hok
      simp at hok
    · rfl
  · intro p q hc2 hhead hlast
    rw [if_neg (by omega), if_pos (by omega)] at hok ⊢
    rw [hsp, hep, hhead, hlast] at hok ⊢
    dsimp only at hok ⊢
    rcases hPTp : srcTrie.ProofTo p with e | lp
    · rw [hPTp] at hok
      simp at hok
    · rw [hPTp] at hok
      dsimp only at hok
      rcases hPTq : srcTrie.ProofTo q with e | rp
      · rw [hPTq] at hok
        simp at hok
      · exact ⟨lp, rp, rfl, rfl, rfl⟩

theorem claim3_proof_assembly_witness :
    (iterateWithLimit cTrie3 0 none 16384 consPaths ([] : List Nat)).2.1 =
      mergeProofs [⟨0, 100⟩, ⟨1, 1⟩] [⟨0, 100⟩, ⟨3, 3⟩] := by
  have h := claim3_proof_assembly cTrie3 0 none 16384 consPaths [] id
    (fun a key value => rfl) rfl (by decide)
  obtain ⟨lp, rp, h1, h2, h3⟩ := h.2.2 1 3 (by decide) (by decide) (by decide)
  have e1 : cTrie3.ProofTo 1 = Except.ok [⟨0, 100⟩, ⟨1, 1⟩] := rfl
  have e2 : cTrie3.ProofTo 3 = Except.ok [⟨0, 100⟩, ⟨3, 3⟩] := rfl
  rw [e1] at h1
  rw [e2] at h2
  injection h1 with h1
  injection h2 with h2
  rw [h3, ← h1, ← h2]

/-- C8: on every successful range call over a trie whose `Iterate` yields
keys in strictly ascending order, the window paths are strictly increasing
and each path has exactly one value entry (and for the address range also
one hash and one leaf). -/
theorem claim8_window_shape (s : State) (a start : Nat) (lim : Option Nat)
    (req : StorageRangeRequest) (nl : Int)
    (hCt : ∀ t, s.classesTrie = Except.ok t → t.leaves.Pairwise (fun x y => x.1 < y.1))
    (hSt : ∀ t, s.storage = Except.ok t → t.leaves.Pairwise (fun x y => x.1 < y.1))
    (hRt : ∀ c t, s.Contract req.Path = Except.ok c → c.StorageTrie = Except.ok t →
      t.leaves.Pairwise (fun x y => x.1 < y.1)) :
    (∀ r, GetClassRange s a start lim = (some r, none) →
      r.Paths.Pairwise (· < ·) ∧ r.Paths.length = r.ClassHashes.length ∧
      r.Paths.length = r.Classes.length) ∧
    (∀ r, GetAddressRange s a start lim = (some r, none) →
      r.Paths.Pairwise (· < ·) ∧ r.Paths.length = r.Hashes.length ∧
      r.Paths.length = r.Leaves.length) ∧
    (∀ r, handleStorageRangeRequest s req nl = (some r, none) →
      r.Paths.Pairwise (· < ·) ∧ r.Paths.length = r.Values.length) := by
  refine ⟨?_, ?_, ?_⟩
  · intro r h
    obtain ⟨ctrie, hct, hok, hr⟩ := GetClassRange_success s a start lim r h
    have hpw := walk_paths_pairwise ctrie start lim maxNodePerRequest
      (classRangeConsumer s) ⟨[], [], [], []⟩ ClassRangeResult.Paths
      (classRangeConsumer_paths s) rfl (hCt ctrie hct)
    have hinv := iterateWithLimit_inv ctrie start lim maxNodePerRequest
      (classRangeConsumer s) ⟨[], [], [], []⟩
      (fun acc n => acc.Paths.length = n ∧ acc.ClassHashes.length = n ∧
        acc.Classes.length = n)
      (fun acc key value he n hp => by
        obtain ⟨hch, hcl⟩ := classRangeConsumer_ok s acc key value he
        have hpa := classRangeConsumer_paths s acc key value
        dsimp only at hp ⊢
        exact ⟨by rw [hpa]; simp [hp.1], by rw [hch]; simp [hp.2.1],
          by rw [hcl, hp.2.2]⟩)
      ⟨rfl, rfl, rfl⟩ hok
    dsimp only at hinv
    rw [hr]
    exact ⟨hpw, hinv.1.trans hinv.2.1.symm, hinv.1.trans hinv.2.2.symm⟩
  · intro r h
    obtain ⟨strie, hst, hok, hr⟩ := GetAddressRange_success s a start lim r h
    have hpw := walk_paths_pairwise strie start lim maxNodePerRequest
      (addressRangeConsumer s) ⟨[], [], [], []⟩ AddressRangeResult.Paths
      (addressRangeConsumer_paths s) rfl (hSt strie hst)
    have hinv := iterateWithLimit_inv strie start lim maxNodePerRequest
      (addressRangeConsumer s) ⟨[], [], [], []⟩
      (fun acc n => acc.Paths.length = n ∧ acc.Hashes.length = n ∧
        acc.Leaves.length = n)
      (fun acc key value he n hp => by
        obtain ⟨hch, hcl⟩ := addressRangeConsumer_ok s acc key value he
        have hpa := addressRangeConsumer_paths s acc key value
        dsimp only at hp ⊢
        exact ⟨by rw [hpa]; simp [hp.1], by rw [hch]; simp [hp.2.1],
          by rw [hcl, hp.2.2]⟩)
      ⟨rfl, rfl, rfl⟩ hok
    dsimp only at hinv
    rw [hr]
    exact ⟨hpw, hinv.1.trans hinv.2.1.symm, hinv.1.trans hinv.2.2.symm⟩
  · intro r h
    obtain ⟨contract, strie, hc, hst, hrt, hok, hr⟩ :=
      handleStorageRangeRequest_success s req nl r h
    have hpw := walk_paths_pairwise strie req.StartAddr req.LimitAddr nl
      storageRangeConsumer ⟨[], [], []⟩ StorageRangeResult.Paths
      storageRangeConsumer_paths rfl (hRt contract strie hc hst)
    have hinv := iterateWithLimit_inv strie req.StartAddr req.LimitAddr nl
      storageRangeConsumer ⟨[], [], []⟩
      (fun acc n => acc.Paths.length = n ∧ acc.Values.length = n)
      (fun acc key value he n hp => by
        dsimp only at hp ⊢
        exact ⟨by rw [storageRangeConsumer_paths]; simp [hp.1],
          by rw [storageRangeConsumer_values]; simp [hp.2]⟩)
      ⟨rfl, rfl⟩ hok
    dsimp only at hinv
    rw [hr]
    exact ⟨hpw, hinv.1.trans hinv.2.symm⟩

theorem claim8_window_shape_witness :
    (⟨[1, 2, 3], [10, 20, 30], [1001, 1002, 1003],
      [⟨0, 100⟩, ⟨1, 1⟩, ⟨3, 3⟩]⟩ : ClassRangeResult).Paths.Pairwise (· < ·) ∧
    (⟨[1, 2, 3], [10, 20, 30], [1001, 1002, 1003],
      [⟨0, 100⟩, ⟨1, 1⟩, ⟨3, 3⟩]⟩ : ClassRangeResult).Paths.length =
      (⟨[1, 2, 3], [10, 20, 30], [1001, 1002, 1003],
        [⟨0, 100⟩, ⟨1, 1⟩, ⟨3, 3⟩]⟩ : ClassRangeResult).ClassHashes.length ∧
    (⟨[1, 2, 3], [10, 20, 30], [1001, 1002, 1003],
      [⟨0, 100⟩, ⟨1, 1⟩, ⟨3, 3⟩]⟩ : ClassRangeResult).Paths.length =
      (⟨[1, 2, 3], [10, 20, 30], [1001, 1002, 1003],
        [⟨0, 100⟩, ⟨1, 1⟩, ⟨3, 3⟩]⟩ : ClassRangeResult).Classes.length := by
  have h := claim8_window_shape cState 0 0 none req1 16384
    (fun t ht => by
      have ht2 : Except.ok cTrie3 = Except.ok t := ht
      injection ht2 with h3
      subst h3
      decide)
    (fun t ht => by
      have ht2 : Except.ok cTrie3 = Except.ok t := ht
      injection ht2 with h3
      subst h3
      decide)
    (fun c t hc ht => by
      have hc2 : Except.ok cContract1 = Except.ok c := hc
      injection hc2 with h2
      subst h2
      have ht2 : Except.ok cTrie1 = Except.ok t := ht
      injection ht2 with h3
      subst h3
      decide)
  exact h.1 ⟨[1, 2, 3], [10, 20, 30], [1001, 1002, 1003],
    [⟨0, 100⟩, ⟨1, 1⟩, ⟨3, 3⟩]⟩ (by decide)

end Juno
